import Mathlib

/-!
Verification of the Simos18 SBOOT seed-recovery tool (`twister.c`).

The development shallowly embeds the C program: `uint32_t` values are
natural numbers kept below `2 ^ 32` (wrap-around is an explicit
`% 2 ^ 32`), the global engine state (`state`, `next`, `left`) is an
explicit `MTState` record threaded through the operations, and the
OpenSSL big-integer oracle, which the specification treats as an opaque
external collaborator, is a parameter of the search loop.
-/

set_option maxRecDepth 10000

namespace SBoot

/-- One word of the seeding LCG (`seedMT`, twister.c:113-118):
`x[0] = (seed | 1) & 0xFFFFFFFF`, `x[i] = (69069 * x[i-1]) mod 2^32`
(the `uint32_t` multiplication wraps modulo `2 ^ 32`; the source's
`& 0xFFFFFFFFU` restates that truncation). -/
def seedWord (seed : Nat) : Nat → Nat
  | 0 => (seed ||| 1) % 2 ^ 32
  | i + 1 => (69069 * seedWord seed i) % 2 ^ 32

/-- The 624-word vector written by `seedMT` (twister.c:116-118). -/
def seedVec (seed : Nat) : List Nat :=
  (List.range 624).map (seedWord seed)

/-- The generator's global state (twister.c:61-63): the 624-word state
vector `state` (the unused extra ANSI slot `state[624]` is dropped: the
source reads it only into a variable that is immediately overwritten),
the read cursor `next` modelled as an index into the vector (the initial
`NULL` pointer is modelled as index 0; it is never dereferenced from a
reachable state), and the countdown `left`, a C `int`. -/
structure MTState where
  vec : List Nat
  nxt : Nat
  left : Int
deriving DecidableEq

/-- The translation unit's initial globals: `state` zero-initialised,
`next` null, `left = -1` (twister.c:61-63). -/
def mtInit : MTState :=
  ⟨List.replicate 624 0, 0, -1⟩

/-- C `seedMT` (twister.c:65-119): `left = 0`, the state vector is
rewritten from the seeding LCG, and `next` is untouched. -/
def seedMT (seed : Nat) (st : MTState) : MTState :=
  { st with vec := seedVec seed, left := 0 }

/-- `mixBits(u, v)` (twister.c:56-59): high bit of `u` with the low 31
bits of `v`. -/
def mixBits (u v : Nat) : Nat :=
  (u &&& 0x80000000) ||| (v &&& 0x7FFFFFFF)

/-- The common body of `reloadMT`'s three update steps
(twister.c:131-137): `*pM ^ (mixBits(s0, s1) >> 1) ^ (loBit(s1) ? K : 0)`. -/
def twistStep (m s0 s1 : Nat) : Nat :=
  m ^^^ (mixBits s0 s1 >>> 1) ^^^ (if s1 &&& 1 = 1 then 0x9908B0DF else 0)

/-- The in-place state rewrite of `reloadMT` (twister.c:131-137).  The
first fold is the first `for` loop (`p0` walks indices `0..226`, `pM`
reads the not-yet-rewritten words at `i+397`), the second fold is the
second `for` loop (`pM` has wrapped to the start of the vector, so it
reads the freshly rewritten words at `i-227`), and the final `set` is
the wrap-around line 137 (`s0` is the still-original `state[623]`, `s1`
the freshly rewritten `state[0]`). -/
@[irreducible] def reloadVec (v : List Nat) : List Nat :=
  let a1 := (List.range 227).foldl
    (fun a i => a.set i (twistStep (a.getD (i + 397) 0) (a.getD i 0) (a.getD (i + 1) 0))) v
  let a2 := (List.range' 227 396).foldl
    (fun a i => a.set i (twistStep (a.getD (i - 227) 0) (a.getD i 0) (a.getD (i + 1) 0))) a1
  a2.set 623 (twistStep (a2.getD 396 0) (a2.getD 623 0) (a2.getD 0 0))

/-- The output tempering (twister.c:138-141 and 152-155).  Each left
shift is immediately masked by a constant below `2 ^ 32`, so the
`uint32_t` truncation of the shifts is subsumed by the masks. -/
def temper (y : Nat) : Nat :=
  let y1 := y ^^^ (y >>> 11)
  let y2 := y1 ^^^ ((y1 <<< 7) &&& 0x9D2C5680)
  let y3 := y2 ^^^ ((y2 <<< 15) &&& 0xEFC60000)
  y3 ^^^ (y3 >>> 18)

/-- C `reloadMT` (twister.c:121-142): if the countdown is more negative
than `-1` the engine was never seeded and is re-seeded with the fixed
fallback seed 1; then `left = 623`, `next = state + 1`, the vector is
rewritten in place, and the tempered first new word is returned. -/
def reloadMT (st : MTState) : Nat × MTState :=
  let st1 := if st.left < -1 then seedMT 1 st else st
  let v2 := reloadVec st1.vec
  (temper (v2.getD 0 0), ⟨v2, 1, 623⟩)

/-- C `randomMT` (twister.c:144-156): decrement the countdown; if it
went negative, regenerate (the decremented countdown is visible to
`reloadMT`'s sentinel test); otherwise read one word through the cursor
and temper it. -/
def randomMT (st : MTState) : Nat × MTState :=
  if st.left - 1 < 0 then
    reloadMT { st with left := st.left - 1 }
  else
    (temper (st.vec.getD st.nxt 0), { st with nxt := st.nxt + 1, left := st.left - 1 })

/-- The first `n` outputs of the engine together with the state they
leave behind: `n` consecutive `randomMT` calls. -/
def drawWords : Nat → MTState → List Nat × MTState
  | 0, st => ([], st)
  | n + 1, st =>
    let p := randomMT st
    let q := drawWords n p.2
    (p.1 :: q.1, q.2)

/-- C `bswap32` (twister.c:158-164): reverse the four bytes of a 32-bit
word.  For any input the result is below `2 ^ 32` because every
component is masked. -/
def bswap32 (x : Nat) : Nat :=
  ((x &&& 0xff000000) >>> 24) |||
  ((x &&& 0x00ff0000) >>> 8) |||
  ((x &&& 0x0000ff00) <<< 8) |||
  ((x &&& 0x000000ff) <<< 24)

/-- The `rand_data[]` fill loop of `main` (twister.c:191-202), counting
the remaining iterations: the iteration with `n = 0` is the one with
`j == 63`, whose word is `bswap32(bswap32(randomMT() & 0xFFFF) + 0x0200)`
(the `uint32_t` addition wraps modulo `2 ^ 32`); every other iteration
stores `randomMT()` directly. -/
def buildCand : Nat → MTState → List Nat × MTState
  | 0, st => ([], st)
  | n + 1, st =>
    let p := randomMT st
    let w := if n = 0 then bswap32 ((bswap32 (p.1 &&& 0xFFFF) + 0x0200) % 2 ^ 32) else p.1
    let q := buildCand n p.2
    (w :: q.1, q.2)

/-- The little-endian four-byte layout of a `uint32_t` on the x86 host
the program assumes (the `unsigned char *` view of `rand_data`,
twister.c:190). -/
def le4 (w : Nat) : List Nat :=
  [w &&& 0xFF, (w >>> 8) &&& 0xFF, (w >>> 16) &&& 0xFF, (w >>> 24) &&& 0xFF]

/-- A byte buffer read as a little-endian unsigned integer.  Modelled
from the spec: the external big-integer engine's `BN_lebin2bn` decoding
of the 256-byte buffer (spec section 4.3). -/
def leVal : List Nat → Nat
  | [] => 0
  | b :: bs => b + 256 * leVal bs

/-- The first four bytes of a buffer read as a little-endian 32-bit
value: the `uint32_t` load `rsa_output_ints[0]` (twister.c:213-214) on
the little-endian host. -/
def leWord32 (bs : List Nat) : Nat :=
  bs.getD 0 0 + 256 * bs.getD 1 0 + 65536 * bs.getD 2 0 + 16777216 * bs.getD 3 0

/-- The first eight bytes of a buffer read as a little-endian 64-bit
value (the quantity the specification says is compared). -/
def leWord64 (bs : List Nat) : Nat :=
  bs.getD 0 0 + 2 ^ 8 * bs.getD 1 0 + 2 ^ 16 * bs.getD 2 0 + 2 ^ 24 * bs.getD 3 0 +
  2 ^ 32 * bs.getD 4 0 + 2 ^ 40 * bs.getD 5 0 + 2 ^ 48 * bs.getD 6 0 + 2 ^ 56 * bs.getD 7 0

/-- The little-endian value of the 4-byte group `j` of a byte buffer. -/
def groupVal (bs : List Nat) (j : Nat) : Nat :=
  bs.getD (4 * j) 0 + 256 * bs.getD (4 * j + 1) 0 +
    65536 * bs.getD (4 * j + 2) 0 + 16777216 * bs.getD (4 * j + 3) 0

/-- One seed trial of `main`'s loop body up to the oracle call
(twister.c:180-204): reset `left` to `-1`, seed the engine, draw the 64
candidate words, view them as 256 bytes, and force byte 245 to zero.
Returns the words, the finished byte buffer, and the engine state left
behind. -/
def trial (st : MTState) (seed : Nat) : List Nat × List Nat × MTState :=
  let st1 := seedMT seed { st with left := -1 }
  let p := buildCand 64 st1
  (p.1, ((p.1.map le4).flatten).set 245 0, p.2)

/-- The first `n` tempered outputs of the engine freshly seeded the way
a trial seeds it (the spec's "engine outputs" of a seed). -/
def engineWords (st : MTState) (seed : Nat) (n : Nat) : List Nat :=
  (drawWords n (seedMT seed { st with left := -1 })).1

/-- The match test of the search loop (twister.c:213-214):
`rsa_output_ints[0] == match` promotes the 32-bit load to 64 bits and
compares it with the full 64-bit target. -/
def prefixHit (out : List Nat) (tgt : Nat) : Bool :=
  leWord32 out == tgt

/-- What the program reports when the comparison succeeds
(twister.c:216-230): the matched seed, the candidate words, and the
oracle output it compared. -/
structure FoundRep where
  fseed : Nat
  fwords : List Nat
  fout : List Nat
deriving DecidableEq

/-- One iteration of `main`'s `while (!done)` loop (twister.c:178-231),
with the RSA oracle--the spec's opaque external collaborator--as a
parameter mapping the candidate buffer to its 256-byte encryption.  A
`Sum.inl` result is the next iteration's `(seed, engine)` pair (the
seed advanced by 2 in `uint32_t` arithmetic); `Sum.inr` is the `done`
exit carrying the success report. -/
def loopStep (oracle : List Nat → List Nat) (tgt : Nat) (s : Nat × MTState) :
    (Nat × MTState) ⊕ FoundRep :=
  let t := trial s.2 s.1
  let out := oracle t.2.1
  if prefixHit out tgt then .inr ⟨s.1, t.1, out⟩
  else .inl ((s.1 + 2) % 2 ^ 32, t.2.2)

/-- `n` iterations of the search loop, stopping at the first match. -/
def runLoop (oracle : List Nat → List Nat) (tgt : Nat) :
    Nat → Nat × MTState → (Nat × MTState) ⊕ FoundRep
  | 0, s => .inl s
  | n + 1, s =>
    match loopStep oracle tgt s with
    | .inl s2 => runLoop oracle tgt n s2
    | .inr f => .inr f

/-- The RSA public modulus baked into `main` (twister.c:173). -/
def rsaModulus : Nat :=
  0xde5a5615fdda3b76b4ecd8754228885e7bf11fdd6c8c18ac24230f7f770006cfe60465384e6a5ab4daa3009abc65bff2abb1da1428ce7a925366a14833dcd18183bad61b2c66f0d8b9c4c90bf27fe9d1c55bf2830306a13d4559df60783f5809547ffd364dbccea7a7c2fc32a0357ceba3e932abcac6bd6398894a1a22f63bdc45b5da8b3c4e80f8c097ca7ffd18ff6c78c81e94c016c080ee6c5322e1aeb59d2123dce1e4dd20d0f1cdb017326b4fd813c060e8d2acd62e703341784dca667632233de57db820f149964b3f4f0c785c39e2534a7ae36fd115b9f06457822f8a9b7ce7533777a4fb03610d6b4018ab332be4e7ad2f4ac193040e5a037417bc53

/-- Claim C2 as stated: the finished buffer has byte 245 zero, its first
63 little-endian groups verbatim equal to the first 63 engine outputs,
and its last group equal to `bswap32(bswap32(w & 0xFFFF) + 0x0200)` for
the 64th engine output `w`. -/
def candC2Claim (st : MTState) (seed : Nat) : Prop :=
  ((trial st seed).2.1).getD 245 0 = 0 ∧
  (∀ j, j < 63 → groupVal ((trial st seed).2.1) j = (engineWords st seed 64).getD j 0) ∧
  groupVal ((trial st seed).2.1) 63 =
    bswap32 ((bswap32 ((engineWords st seed 64).getD 63 0 &&& 0xFFFF) + 0x0200) % 2 ^ 32)

/-- Claim C3 as stated: the last 4-byte group of the finished buffer
stores the 64th engine output masked to its low 16 bits plus `0x0200`,
with its byte order reversed relative to the little-endian layout of
the other words. -/
def candC3Claim (st : MTState) (seed : Nat) : Prop :=
  ((trial st seed).2.1).drop 252 =
    (le4 (((engineWords st seed 64).getD 63 0 &&& 0xFFFF) + 0x0200)).reverse

theorem lor_one_eq (n : Nat) : n ||| 1 = 2 * (n / 2) + 1 := by
  have h1 : (n ||| 1) % 2 = 1 := Nat.or_mod_two_eq_one.mpr (Or.inr (by norm_num))
  have h2 : (n ||| 1) / 2 = n / 2 := by
    rw [Nat.or_div_two]
    norm_num
  omega

theorem seedWord_fold (k : Nat) : ∀ i, seedWord (2 * k) i = seedWord (2 * k + 1) i := by
  intro i
  induction i with
  | zero =>
    show (2 * k ||| 1) % 2 ^ 32 = (2 * k + 1 ||| 1) % 2 ^ 32
    rw [lor_one_eq, lor_one_eq]
    congr 2
    omega
  | succ i ih =>
    show (69069 * seedWord (2 * k) i) % 2 ^ 32 = (69069 * seedWord (2 * k + 1) i) % 2 ^ 32
    rw [ih]

theorem seedVec_fold (k : Nat) : seedVec (2 * k) = seedVec (2 * k + 1) := by
  have hf : seedWord (2 * k) = seedWord (2 * k + 1) := funext (seedWord_fold k)
  unfold seedVec
  rw [hf]

theorem seedMT_fold (k : Nat) (st : MTState) : seedMT (2 * k) st = seedMT (2 * k + 1) st := by
  unfold seedMT
  rw [seedVec_fold]

theorem seedVec_getD (seed : Nat) (i : Nat) (h : i < 624) :
    (seedVec seed).getD i 0 = seedWord seed i := by
  simp [seedVec, List.getD_eq_getElem?_getD, List.getElem?_range h]


theorem drawWords_succ (n : Nat) (st : MTState) :
    (drawWords (n + 1) st).1 = (randomMT st).1 :: (drawWords n (randomMT st).2).1 := rfl

/-- C5: for every k, initialising the engine with seed 2k and drawing any
number of outputs gives exactly the same outputs (and engine states) as
initialising with seed 2k+1: the seeding path forces the low seed bit on. -/
theorem c5_seed_folding (k n : Nat) (st : MTState) :
    drawWords n (seedMT (2 * k) st) = drawWords n (seedMT (2 * k + 1) st) := by
  rw [seedMT_fold]

/-- C4: for every 32-bit seed, `seedMT` sets state word 0 to `seed | 1`,
every later word i to `69069 * x[i-1] mod 2^32`, sets the countdown to 0,
and the first subsequent `randomMT` call therefore enters `reloadMT`. -/
theorem c4_seed_expansion (seed : Nat) (st : MTState) (h : seed < 2 ^ 32) :
    (seedMT seed st).vec.getD 0 0 = seed ||| 1 ∧
    (∀ i, 0 < i → i < 624 →
      (seedMT seed st).vec.getD i 0 =
        (69069 * (seedMT seed st).vec.getD (i - 1) 0) % 2 ^ 32) ∧
    (seedMT seed st).left = 0 ∧
    randomMT (seedMT seed st) = reloadMT { seedMT seed st with left := -1 } := by
  have hv : (seedMT seed st).vec = seedVec seed := rfl
  refine ⟨?_, ?_, rfl, ?_⟩
  · rw [hv, seedVec_getD seed 0 (by norm_num)]
    exact Nat.mod_eq_of_lt (Nat.or_lt_two_pow h (by norm_num))
  · intro i h1 h2
    obtain ⟨j, rfl⟩ : ∃ j, i = j + 1 := ⟨i - 1, by omega⟩
    rw [hv, seedVec_getD _ _ h2, seedVec_getD _ _ (by omega)]
    simp [seedWord]
  · unfold randomMT
    rw [if_pos (by simp [seedMT])]
    have he : ({ seedMT seed st with left := (seedMT seed st).left - 1 } : MTState) =
        { seedMT seed st with left := -1 } := by
      simp [seedMT]
    rw [he]

/-- C8: the countdown lies in [-1, 623] after construction, after every
`seedMT`, after every `reloadMT`, and after every `randomMT` performed in
that range; `reloadMT` always leaves the countdown at 623 with the cursor
on the second state word (index 1). -/
theorem c8_countdown_range :
    (-1 ≤ mtInit.left ∧ mtInit.left ≤ 623) ∧
    (∀ seed st, -1 ≤ (seedMT seed st).left ∧ (seedMT seed st).left ≤ 623) ∧
    (∀ st, (reloadMT st).2.left = 623 ∧ (reloadMT st).2.nxt = 1) ∧
    (∀ st, -1 ≤ st.left → st.left ≤ 623 →
      -1 ≤ (randomMT st).2.left ∧ (randomMT st).2.left ≤ 623) := by
  refine ⟨⟨by norm_num [mtInit], by norm_num [mtInit]⟩,
    fun seed st => ⟨by norm_num [seedMT], by norm_num [seedMT]⟩,
    fun st => ⟨rfl, rfl⟩, ?_⟩
  intro st h1 h2
  unfold randomMT
  by_cases hc : st.left - 1 < 0
  · rw [if_pos hc]
    have h3 : (reloadMT { st with left := st.left - 1 }).2.left = 623 := rfl
    rw [h3]
    norm_num
  · rw [if_neg hc]
    constructor
    · show -1 ≤ st.left - 1
      omega
    · show st.left - 1 ≤ 623
      omega

/-- C9: a `randomMT` call whose decremented countdown is still
non-negative leaves the state vector unchanged and only advances the
cursor and decrements the countdown. -/
theorem c9_read_frame (st : MTState) (h : 0 ≤ st.left - 1) :
    (randomMT st).2.vec = st.vec ∧ (randomMT st).2.nxt = st.nxt + 1 ∧
    (randomMT st).2.left = st.left - 1 := by
  unfold randomMT
  rw [if_neg (by omega)]
  exact ⟨rfl, rfl, rfl⟩

/-- C10: invoking `reloadMT` on an engine whose countdown sentinel is
more negative than -1 (never validly seeded) first re-seeds with the
fixed fallback seed 1, so its output and state, and hence all subsequent
outputs, equal those of an engine freshly seeded with 1. -/
theorem c10_fallback_seed (st : MTState) (h : st.left < -1) :
    reloadMT st = randomMT (seedMT 1 st) ∧
    ∀ n, (reloadMT st).1 :: (drawWords n (reloadMT st).2).1 =
      (drawWords (n + 1) (seedMT 1 st)).1 := by
  have key : reloadMT st = randomMT (seedMT 1 st) := by
    unfold randomMT
    rw [if_pos (by simp [seedMT])]
    unfold reloadMT
    rw [if_pos h, if_neg (by simp [seedMT])]
  refine ⟨key, fun n => ?_⟩
  rw [drawWords_succ]
  rw [key]


theorem loopStep_miss (oracle : List Nat → List Nat) (tgt : Nat) (s : Nat × MTState)
    (h : prefixHit (oracle (trial s.2 s.1).2.1) tgt = false) :
    loopStep oracle tgt s = .inl ((s.1 + 2) % 2 ^ 32, (trial s.2 s.1).2.2) := by
  simp [loopStep, h]

theorem loopStep_hit (oracle : List Nat → List Nat) (tgt : Nat) (s : Nat × MTState)
    (f : FoundRep) (h : loopStep oracle tgt s = .inr f) :
    prefixHit f.fout tgt = true ∧ f.fseed = s.1 := by
  revert h
  simp only [loopStep]
  by_cases hp : prefixHit (oracle (trial s.2 s.1).2.1) tgt = true
  · rw [if_pos hp]
    intro h
    injection h with h2
    subst h2
    exact ⟨hp, rfl⟩
  · rw [if_neg hp]
    intro h
    exact Sum.noConfusion h

theorem runLoop_inr (oracle : List Nat → List Nat) (tgt : Nat) :
    ∀ (n : Nat) (s : Nat × MTState) (f : FoundRep),
      runLoop oracle tgt n s = .inr f → prefixHit f.fout tgt = true := by
  intro n
  induction n with
  | zero =>
    intro s f h
    exact Sum.noConfusion h
  | succ n ih =>
    intro s f h
    cases hs : loopStep oracle tgt s with
    | inl s2 =>
      simp only [runLoop, hs] at h
      exact ih s2 f h
    | inr f2 =>
      simp only [runLoop, hs] at h
      injection h with h2
      subst h2
      exact (loopStep_hit oracle tgt s f2 hs).1

/-- C1 (amended): one search-loop iteration reaches `Found` exactly when
the first four bytes of the oracle output, read as a little-endian
32-bit value and zero-extended, equal the full 64-bit target; only the
first 4 bytes of the output take part in the comparison. -/
theorem c1_prefix_compare (oracle : List Nat → List Nat) (tgt : Nat) (s : Nat × MTState) :
    (∃ f, loopStep oracle tgt s = .inr f) ↔
      leWord32 (oracle (trial s.2 s.1).2.1) = tgt := by
  unfold loopStep
  by_cases hp : prefixHit (oracle (trial s.2 s.1).2.1) tgt = true
  · rw [if_pos hp]
    simp only [prefixHit, beq_iff_eq] at hp
    exact ⟨fun _ => hp, fun _ => ⟨_, rfl⟩⟩
  · rw [if_neg hp]
    simp only [prefixHit, beq_iff_eq] at hp
    constructor
    · rintro ⟨f, hf⟩
      exact Sum.noConfusion hf
    · intro hv
      exact absurd hv hp

/-- C1 counterexample: a 256-byte oracle output whose first 8 bytes read
as the 64-bit target, yet the iteration stays in the running state, so
the comparison is not of the first 8 bytes. -/
theorem c1_counterexample :
    ([1, 0, 0, 0, 1, 0, 0, 0] ++ List.replicate 248 0 : List Nat).length = 256 ∧
    leWord64 ([1, 0, 0, 0, 1, 0, 0, 0] ++ List.replicate 248 0) = 4294967297 ∧
    (loopStep (fun _ => [1, 0, 0, 0, 1, 0, 0, 0] ++ List.replicate 248 0) 4294967297
      (1, mtInit)).isLeft = true :=
  ⟨by decide, by decide, rfl⟩




theorem and255 (x : Nat) : x &&& 255 = x % 256 := by
  have h := Nat.and_pow_two_sub_one_eq_mod x 8
  norm_num at h
  exact h

theorem shr8 (x : Nat) : x >>> 8 = x / 256 := by
  have h := Nat.shiftRight_eq_div_pow x 8
  norm_num at h
  exact h

theorem shr16 (x : Nat) : x >>> 16 = x / 65536 := by
  have h := Nat.shiftRight_eq_div_pow x 16
  norm_num at h
  exact h

theorem shr24 (x : Nat) : x >>> 24 = x / 16777216 := by
  have h := Nat.shiftRight_eq_div_pow x 24
  norm_num at h
  exact h

theorem le4_val (w : Nat) (h : w < 2 ^ 32) :
    (le4 w).getD 0 0 + 256 * (le4 w).getD 1 0 + 65536 * (le4 w).getD 2 0 +
      16777216 * (le4 w).getD 3 0 = w := by
  simp only [le4, List.getD_cons_zero, List.getD_cons_succ]
  rw [and255, and255, and255, and255, shr8, shr16, shr24]
  norm_num at h
  omega

theorem le4_mem_lt (w x : Nat) (h : x ∈ le4 w) : x < 256 := by
  have h8 : (256 : Nat) = 2 ^ 8 := by norm_num
  simp only [le4, List.mem_cons, List.not_mem_nil, or_false] at h
  rcases h with rfl | rfl | rfl | rfl <;>
    · rw [h8]
      exact Nat.and_lt_two_pow _ (by norm_num)

theorem flatten_le4_length : ∀ ws : List Nat, ((ws.map le4).flatten).length = 4 * ws.length := by
  intro ws
  induction ws with
  | nil => rfl
  | cons w ws ih =>
    simp only [List.map_cons, List.flatten_cons, List.length_append, ih, le4,
      List.length_cons, List.length_nil]
    omega

theorem flatten_le4_getD : ∀ (ws : List Nat) (j r : Nat), j < ws.length → r < 4 →
    ((ws.map le4).flatten).getD (4 * j + r) 0 = (le4 (ws.getD j 0)).getD r 0 := by
  intro ws
  induction ws with
  | nil =>
    intro j r hj hr
    simp at hj
  | cons w ws ih =>
    intro j r hj hr
    cases j with
    | zero =>
      interval_cases r <;> simp [le4]
    | succ j =>
      have hidx : 4 * (j + 1) + r = 4 * j + r + 1 + 1 + 1 + 1 := by ring
      rw [hidx]
      simp only [List.map_cons, List.flatten_cons, le4, List.cons_append,
        List.getD_cons_succ]
      have hj2 : j < ws.length := by
        simp only [List.length_cons] at hj
        omega
      have hh := ih j r hj2 hr
      simp only [le4] at hh
      exact hh

theorem flatten_le4_drop : ∀ (ws : List Nat) (j : Nat),
    ((ws.map le4).flatten).drop (4 * j) = ((ws.drop j).map le4).flatten := by
  intro ws
  induction ws with
  | nil =>
    intro j
    simp
  | cons w ws ih =>
    intro j
    cases j with
    | zero => simp
    | succ j =>
      have hidx : 4 * (j + 1) = 4 * j + 1 + 1 + 1 + 1 := by ring
      rw [hidx]
      simp only [List.map_cons, List.flatten_cons, le4, List.cons_append,
        List.drop_succ_cons]
      exact ih j

theorem getD_set_ne (l : List Nat) (i j x : Nat) (h : i ≠ j) :
    (l.set i x).getD j 0 = l.getD j 0 := by
  simp [List.getD_eq_getElem?_getD, List.getElem?_set_ne h]

theorem getD_set_self (l : List Nat) (i x : Nat) (h : i < l.length) :
    (l.set i x).getD i 0 = x := by
  simp [List.getD_eq_getElem?_getD, List.getElem?_set_self h]


theorem buildCand_length : ∀ (n : Nat) (st : MTState), (buildCand n st).1.length = n := by
  intro n
  induction n with
  | zero => intro st; rfl
  | succ n ih =>
    intro st
    simp only [buildCand, List.length_cons]
    rw [ih]

theorem drawWords_length : ∀ (n : Nat) (st : MTState), (drawWords n st).1.length = n := by
  intro n
  induction n with
  | zero => intro st; rfl
  | succ n ih =>
    intro st
    simp only [drawWords, List.length_cons]
    rw [ih]

theorem buildCand_snd : ∀ (n : Nat) (st : MTState), (buildCand n st).2 = (drawWords n st).2 := by
  intro n
  induction n with
  | zero => intro st; rfl
  | succ n ih =>
    intro st
    simp only [buildCand, drawWords]
    exact ih (randomMT st).2

theorem buildCand_getD_lt : ∀ (n : Nat) (st : MTState) (j : Nat), j + 1 < n →
    (buildCand n st).1.getD j 0 = (drawWords n st).1.getD j 0 := by
  intro n
  induction n with
  | zero =>
    intro st j h
    omega
  | succ n ih =>
    intro st j h
    cases j with
    | zero =>
      simp only [buildCand, drawWords, List.getD_cons_zero]
      rw [if_neg (by omega)]
    | succ j =>
      simp only [buildCand, drawWords, List.getD_cons_succ]
      exact ih (randomMT st).2 j (by omega)

theorem buildCand_last : ∀ (n : Nat) (st : MTState), 1 ≤ n →
    (buildCand n st).1.getD (n - 1) 0 =
      bswap32 ((bswap32 ((drawWords n st).1.getD (n - 1) 0 &&& 0xFFFF) + 0x0200) % 2 ^ 32) := by
  intro n
  induction n with
  | zero =>
    intro st h
    omega
  | succ n ih =>
    intro st h
    cases n with
    | zero =>
      simp [buildCand, drawWords]
    | succ m =>
      have hs : m + 1 + 1 - 1 = m + 1 := by omega
      rw [hs]
      simp only [buildCand, drawWords, List.getD_cons_succ]
      have := ih (randomMT st).2 (by omega)
      have hs2 : m + 1 - 1 = m := by omega
      rw [hs2] at this
      exact this

theorem seedWord_lt (seed i : Nat) : seedWord seed i < 2 ^ 32 := by
  cases i <;>
    · unfold seedWord
      exact Nat.mod_lt _ (by norm_num)

theorem seedVec_lt (seed : Nat) : ∀ x ∈ seedVec seed, x < 2 ^ 32 := by
  intro x hx
  unfold seedVec at hx
  simp only [List.mem_map] at hx
  obtain ⟨i, _, rfl⟩ := hx
  exact seedWord_lt seed i

theorem getD_lt32 (l : List Nat) (h : ∀ x ∈ l, x < 2 ^ 32) (i : Nat) : l.getD i 0 < 2 ^ 32 := by
  rcases hx : l[i]? with _ | x
  · simp [List.getD_eq_getElem?_getD, hx]
  · have hm : x ∈ l := List.getElem?_mem hx
    rw [List.getD_eq_getElem?_getD, hx]
    exact h x hm

theorem twistStep_lt (m s0 s1 : Nat) (hm : m < 2 ^ 32) : twistStep m s0 s1 < 2 ^ 32 := by
  unfold twistStep mixBits
  apply Nat.xor_lt_two_pow (Nat.xor_lt_two_pow hm ?_) ?_
  · rw [Nat.shiftRight_eq_div_pow]
    apply lt_of_le_of_lt (Nat.div_le_self _ _)
    exact Nat.or_lt_two_pow (Nat.and_lt_two_pow _ (by norm_num)) (Nat.and_lt_two_pow _ (by norm_num))
  · split <;> norm_num

theorem foldl_set_lt (g : List Nat → Nat → Nat)
    (hg : ∀ a i, (∀ x ∈ a, x < 2 ^ 32) → g a i < 2 ^ 32) :
    ∀ (ixs : List Nat) (v : List Nat), (∀ x ∈ v, x < 2 ^ 32) →
      ∀ x ∈ ixs.foldl (fun a i => a.set i (g a i)) v, x < 2 ^ 32 := by
  intro ixs
  induction ixs with
  | nil =>
    intro v hv
    exact hv
  | cons i ixs ih =>
    intro v hv
    simp only [List.foldl_cons]
    apply ih
    intro x hx
    rcases List.mem_or_eq_of_mem_set hx with h | rfl
    · exact hv x h
    · exact hg v i hv

theorem reloadVec_lt (v : List Nat) (hv : ∀ x ∈ v, x < 2 ^ 32) :
    ∀ x ∈ reloadVec v, x < 2 ^ 32 := by
  unfold reloadVec
  have h1 := foldl_set_lt
    (fun a i => twistStep (a.getD (i + 397) 0) (a.getD i 0) (a.getD (i + 1) 0))
    (fun a i ha => twistStep_lt _ _ _ (getD_lt32 a ha _)) (List.range 227) v hv
  have h2 := foldl_set_lt
    (fun a i => twistStep (a.getD (i - 227) 0) (a.getD i 0) (a.getD (i + 1) 0))
    (fun a i ha => twistStep_lt _ _ _ (getD_lt32 a ha _)) (List.range' 227 396) _ h1
  intro x hx
  rcases List.mem_or_eq_of_mem_set hx with h | rfl
  · exact h2 x h
  · exact twistStep_lt _ _ _ (getD_lt32 _ h2 _)

theorem temper_lt (y : Nat) (h : y < 2 ^ 32) : temper y < 2 ^ 32 := by
  simp only [temper]
  have h1 : y ^^^ (y >>> 11) < 2 ^ 32 := by
    apply Nat.xor_lt_two_pow h
    rw [Nat.shiftRight_eq_div_pow]
    exact lt_of_le_of_lt (Nat.div_le_self _ _) h
  have h2 : y ^^^ (y >>> 11) ^^^ (((y ^^^ (y >>> 11)) <<< 7) &&& 0x9D2C5680) < 2 ^ 32 :=
    Nat.xor_lt_two_pow h1 (Nat.and_lt_two_pow _ (by norm_num))
  apply Nat.xor_lt_two_pow (Nat.xor_lt_two_pow h2 (Nat.and_lt_two_pow _ (by norm_num)))
  rw [Nat.shiftRight_eq_div_pow]
  exact lt_of_le_of_lt (Nat.div_le_self _ _)
    (Nat.xor_lt_two_pow h2 (Nat.and_lt_two_pow _ (by norm_num)))

theorem reloadMT_lt (st : MTState) (h : ∀ x ∈ st.vec, x < 2 ^ 32) :
    (reloadMT st).1 < 2 ^ 32 ∧ ∀ x ∈ (reloadMT st).2.vec, x < 2 ^ 32 := by
  have hb : ∀ x ∈ (if st.left < -1 then seedMT 1 st else st).vec, x < 2 ^ 32 := by
    split
    · exact seedVec_lt 1
    · exact h
  have hv := reloadVec_lt _ hb
  exact ⟨temper_lt ((reloadVec (if st.left < -1 then seedMT 1 st else st).vec).getD 0 0)
    (getD_lt32 _ hv 0), hv⟩

theorem randomMT_lt (st : MTState) (h : ∀ x ∈ st.vec, x < 2 ^ 32) :
    (randomMT st).1 < 2 ^ 32 ∧ ∀ x ∈ (randomMT st).2.vec, x < 2 ^ 32 := by
  unfold randomMT
  split
  · exact reloadMT_lt _ h
  · exact ⟨temper_lt _ (getD_lt32 _ h _), h⟩

theorem drawWords_lt : ∀ (n : Nat) (st : MTState), (∀ x ∈ st.vec, x < 2 ^ 32) →
    ∀ x ∈ (drawWords n st).1, x < 2 ^ 32 := by
  intro n
  induction n with
  | zero =>
    intro st h x hx
    simp [drawWords] at hx
  | succ n ih =>
    intro st h x hx
    simp only [drawWords, List.mem_cons] at hx
    rcases hx with rfl | hx2
    · exact (randomMT_lt st h).1
    · exact ih (randomMT st).2 (randomMT_lt st h).2 x hx2

theorem bswap32_lt (x : Nat) : bswap32 x < 2 ^ 32 := by
  unfold bswap32
  apply Nat.or_lt_two_pow (Nat.or_lt_two_pow (Nat.or_lt_two_pow ?_ ?_) ?_) ?_
  · rw [Nat.shiftRight_eq_div_pow]
    exact lt_of_le_of_lt (Nat.div_le_self _ _) (Nat.and_lt_two_pow _ (by norm_num))
  · rw [Nat.shiftRight_eq_div_pow]
    exact lt_of_le_of_lt (Nat.div_le_self _ _) (Nat.and_lt_two_pow _ (by norm_num))
  · rw [Nat.shiftLeft_eq]
    calc (x &&& 0x0000ff00) * 2 ^ 8 ≤ 0x0000ff00 * 2 ^ 8 :=
      Nat.mul_le_mul_right _ Nat.and_le_right
    _ < 2 ^ 32 := by norm_num
  · rw [Nat.shiftLeft_eq]
    calc (x &&& 0x000000ff) * 2 ^ 24 ≤ 0x000000ff * 2 ^ 24 :=
      Nat.mul_le_mul_right _ Nat.and_le_right
    _ < 2 ^ 32 := by norm_num


theorem or_pow_mul (n : Nat) : ∀ a b : Nat, a < 2 ^ n → a ||| 2 ^ n * b = a + 2 ^ n * b := by
  induction n with
  | zero =>
    intro a b h
    have ha : a = 0 := by omega
    subst ha
    simp
  | succ n ih =>
    intro a b h
    have hp : 2 ^ (n + 1) = 2 * 2 ^ n := by rw [Nat.pow_succ]; ring
    have hpb : 2 ^ (n + 1) * b = 2 * (2 ^ n * b) := by rw [hp, Nat.mul_assoc]
    have h2 : 2 ^ (n + 1) * b / 2 = 2 ^ n * b := by
      rw [hpb]
      exact Nat.mul_div_cancel_left _ (by norm_num)
    have hd : (a ||| 2 ^ (n + 1) * b) / 2 = a / 2 + 2 ^ n * b := by
      rw [Nat.or_div_two, h2]
      exact ih (a / 2) b (by omega)
    have hb : 2 ^ (n + 1) * b % 2 = 0 := by
      rw [hpb]
      exact Nat.mul_mod_right 2 _
    have hm : (a ||| 2 ^ (n + 1) * b) % 2 = a % 2 := by
      rcases Nat.mod_two_eq_zero_or_one a with h0 | h1
      · rw [h0]
        by_contra hne
        have ho : (a ||| 2 ^ (n + 1) * b) % 2 = 1 := by omega
        rcases Nat.or_mod_two_eq_one.mp ho with hx | hx <;> omega
      · rw [h1]
        exact Nat.or_mod_two_eq_one.mpr (Or.inl h1)
    have hsplit := Nat.div_add_mod (a ||| 2 ^ (n + 1) * b) 2
    omega

theorem and_byte (x a : Nat) :
    x &&& ((2 ^ 8 - 1) <<< a) = ((x >>> a) % 2 ^ 8) <<< a := by
  apply Nat.eq_of_testBit_eq
  intro i
  simp only [Nat.testBit_and, Nat.testBit_shiftLeft, Nat.testBit_mod_two_pow,
    Nat.testBit_shiftRight, Nat.testBit_two_pow_sub_one]
  by_cases h : a ≤ i
  · have hge : decide (i ≥ a) = true := by simp [h]
    have hi : a + (i - a) = i := by omega
    rw [hge, hi]
    cases hx : x.testBit i <;> cases hb : decide (i - a < 8) <;> simp
  · have hge : decide (i ≥ a) = false := by simp [h]
    rw [hge]
    simp

theorem and_hi8 (x : Nat) : x &&& 0xff000000 = x / 2 ^ 24 % 2 ^ 8 * 2 ^ 24 := by
  have hm : (0xff000000 : Nat) = (2 ^ 8 - 1) <<< 24 := by decide
  rw [hm, and_byte, Nat.shiftLeft_eq, Nat.shiftRight_eq_div_pow]

theorem and_mid8 (x : Nat) : x &&& 0x00ff0000 = x / 2 ^ 16 % 2 ^ 8 * 2 ^ 16 := by
  have hm : (0x00ff0000 : Nat) = (2 ^ 8 - 1) <<< 16 := by decide
  rw [hm, and_byte, Nat.shiftLeft_eq, Nat.shiftRight_eq_div_pow]

theorem and_lo8 (x : Nat) : x &&& 0x0000ff00 = x / 2 ^ 8 % 2 ^ 8 * 2 ^ 8 := by
  have hm : (0x0000ff00 : Nat) = (2 ^ 8 - 1) <<< 8 := by decide
  rw [hm, and_byte, Nat.shiftLeft_eq, Nat.shiftRight_eq_div_pow]

theorem and_bot8 (x : Nat) : x &&& 0x000000ff = x % 2 ^ 8 := by
  have hm : (0x000000ff : Nat) = 2 ^ 8 - 1 := by decide
  rw [hm, Nat.and_pow_two_sub_one_eq_mod]

/-- `bswap32` in plain arithmetic: the output is the input's four bytes
reassembled in the opposite order. -/
theorem bswap32_arith (x : Nat) :
    bswap32 x = x / 2 ^ 24 % 2 ^ 8 + 2 ^ 8 * (x / 2 ^ 16 % 2 ^ 8) +
      2 ^ 16 * (x / 2 ^ 8 % 2 ^ 8) + 2 ^ 24 * (x % 2 ^ 8) := by
  have hB3 : x / 2 ^ 24 % 2 ^ 8 < 2 ^ 8 := Nat.mod_lt _ (by norm_num)
  have hB2 : x / 2 ^ 16 % 2 ^ 8 < 2 ^ 8 := Nat.mod_lt _ (by norm_num)
  have hB1 : x / 2 ^ 8 % 2 ^ 8 < 2 ^ 8 := Nat.mod_lt _ (by norm_num)
  unfold bswap32
  rw [and_hi8, and_mid8, and_lo8, and_bot8,
    Nat.shiftRight_eq_div_pow, Nat.shiftRight_eq_div_pow,
    Nat.shiftLeft_eq, Nat.shiftLeft_eq]
  have s3 : x / 2 ^ 24 % 2 ^ 8 * 2 ^ 24 / 2 ^ 24 = x / 2 ^ 24 % 2 ^ 8 :=
    Nat.mul_div_cancel _ (by norm_num)
  have s2 : x / 2 ^ 16 % 2 ^ 8 * 2 ^ 16 / 2 ^ 8 = 2 ^ 8 * (x / 2 ^ 16 % 2 ^ 8) := by
    have hp : (2 : Nat) ^ 16 = 2 ^ 8 * 2 ^ 8 := by norm_num
    calc x / 2 ^ 16 % 2 ^ 8 * 2 ^ 16 / 2 ^ 8
        = x / 2 ^ 16 % 2 ^ 8 * 2 ^ 8 * 2 ^ 8 / 2 ^ 8 := by rw [hp, Nat.mul_assoc]
      _ = x / 2 ^ 16 % 2 ^ 8 * 2 ^ 8 := Nat.mul_div_cancel _ (by norm_num)
      _ = 2 ^ 8 * (x / 2 ^ 16 % 2 ^ 8) := Nat.mul_comm _ _
  have s1 : x / 2 ^ 8 % 2 ^ 8 * 2 ^ 8 * 2 ^ 8 = 2 ^ 16 * (x / 2 ^ 8 % 2 ^ 8) := by ring
  have s0 : x % 2 ^ 8 * 2 ^ 24 = 2 ^ 24 * (x % 2 ^ 8) := Nat.mul_comm _ _
  rw [s3, s2, s1, s0]
  rw [or_pow_mul 8 _ _ hB3]
  rw [or_pow_mul 16 _ _ (by omega)]
  rw [or_pow_mul 24 _ _ (by omega)]

theorem bswap_low16_aux (m : Nat) (h : m < 2 ^ 16) :
    bswap32 ((bswap32 m + 0x0200) % 2 ^ 32) = m + 0x020000 := by
  have h1 : bswap32 m = 2 ^ 16 * (m / 2 ^ 8) + 2 ^ 24 * (m % 2 ^ 8) := by
    rw [bswap32_arith m]
    have h24 : m / 2 ^ 24 = 0 := Nat.div_eq_of_lt (by omega)
    have h16 : m / 2 ^ 16 = 0 := Nat.div_eq_of_lt (by omega)
    have h8 : m / 2 ^ 8 % 2 ^ 8 = m / 2 ^ 8 := Nat.mod_eq_of_lt (by omega)
    rw [h24, h16, h8]
    norm_num
  have hE : (bswap32 m + 0x0200) % 2 ^ 32 =
      2 ^ 16 * (m / 2 ^ 8) + 2 ^ 24 * (m % 2 ^ 8) + 0x0200 := by
    rw [h1]
    apply Nat.mod_eq_of_lt
    omega
  have hE24 : (2 ^ 16 * (m / 2 ^ 8) + 2 ^ 24 * (m % 2 ^ 8) + 512) / 2 ^ 24 = m % 2 ^ 8 := by
    have ha : 2 ^ 16 * (m / 2 ^ 8) + 2 ^ 24 * (m % 2 ^ 8) + 512
        = 2 ^ 16 * (m / 2 ^ 8) + 512 + m % 2 ^ 8 * 2 ^ 24 := by ring
    rw [ha, Nat.add_mul_div_right _ _ (by norm_num : 0 < 2 ^ 24),
      Nat.div_eq_of_lt (by omega)]
    omega
  have hE16 : (2 ^ 16 * (m / 2 ^ 8) + 2 ^ 24 * (m % 2 ^ 8) + 512) / 2 ^ 16 =
      m / 2 ^ 8 + 2 ^ 8 * (m % 2 ^ 8) := by
    have ha : 2 ^ 16 * (m / 2 ^ 8) + 2 ^ 24 * (m % 2 ^ 8) + 512
        = 512 + (m / 2 ^ 8 + 2 ^ 8 * (m % 2 ^ 8)) * 2 ^ 16 := by ring
    rw [ha, Nat.add_mul_div_right _ _ (by norm_num : 0 < 2 ^ 16),
      Nat.div_eq_of_lt (by norm_num)]
    omega
  have hE8 : (2 ^ 16 * (m / 2 ^ 8) + 2 ^ 24 * (m % 2 ^ 8) + 512) / 2 ^ 8 =
      2 + 2 ^ 8 * (m / 2 ^ 8) + 2 ^ 16 * (m % 2 ^ 8) := by
    have ha : 2 ^ 16 * (m / 2 ^ 8) + 2 ^ 24 * (m % 2 ^ 8) + 512
        = (2 + 2 ^ 8 * (m / 2 ^ 8) + 2 ^ 16 * (m % 2 ^ 8)) * 2 ^ 8 := by ring
    rw [ha, Nat.mul_div_cancel _ (by norm_num : 0 < 2 ^ 8)]
  have hE0 : (2 ^ 16 * (m / 2 ^ 8) + 2 ^ 24 * (m % 2 ^ 8) + 512) % 2 ^ 8 = 0 := by
    have ha : 2 ^ 16 * (m / 2 ^ 8) + 2 ^ 24 * (m % 2 ^ 8) + 512
        = (2 + 2 ^ 8 * (m / 2 ^ 8) + 2 ^ 16 * (m % 2 ^ 8)) * 2 ^ 8 := by ring
    rw [ha]
    exact Nat.mul_mod_left _ _
  have hM1 : m % 2 ^ 8 % 2 ^ 8 = m % 2 ^ 8 :=
    Nat.mod_eq_of_lt (Nat.mod_lt _ (by norm_num))
  have hM2 : (m / 2 ^ 8 + 2 ^ 8 * (m % 2 ^ 8)) % 2 ^ 8 = m / 2 ^ 8 := by
    rw [Nat.add_mul_mod_self_left]
    exact Nat.mod_eq_of_lt (by omega)
  have hM3 : (2 + 2 ^ 8 * (m / 2 ^ 8) + 2 ^ 16 * (m % 2 ^ 8)) % 2 ^ 8 = 2 := by
    have hb : 2 + 2 ^ 8 * (m / 2 ^ 8) + 2 ^ 16 * (m % 2 ^ 8)
        = 2 + (m / 2 ^ 8 + 2 ^ 8 * (m % 2 ^ 8)) * 2 ^ 8 := by ring
    rw [hb, Nat.add_mul_mod_self_right]
    norm_num
  rw [hE, bswap32_arith, hE24, hE16, hE8, hE0, hM1, hM2, hM3]
  omega

theorem bswap_low16 (w : Nat) :
    bswap32 ((bswap32 (w &&& 0xFFFF) + 0x0200) % 2 ^ 32) = (w &&& 0xFFFF) + 0x020000 := by
  have h : w &&& 0xFFFF < 2 ^ 16 := Nat.and_lt_two_pow _ (by norm_num)
  exact bswap_low16_aux _ h


theorem trial_bytes (st : MTState) (seed : Nat) :
    (trial st seed).2.1 =
      (((buildCand 64 (seedMT seed { st with left := -1 })).1.map le4).flatten).set 245 0 := rfl

theorem trial_words (st : MTState) (seed : Nat) :
    (trial st seed).1 = (buildCand 64 (seedMT seed { st with left := -1 })).1 := rfl

theorem engineWords_eq (st : MTState) (seed : Nat) (n : Nat) :
    engineWords st seed n = (drawWords n (seedMT seed { st with left := -1 })).1 := rfl

theorem engineWords_lt (st : MTState) (seed : Nat) (n : Nat) :
    ∀ x ∈ engineWords st seed n, x < 2 ^ 32 := by
  rw [engineWords_eq]
  apply drawWords_lt
  exact seedVec_lt seed

theorem groupVal_set245_ne (B : List Nat) (j : Nat) (hne : j ≠ 61) :
    groupVal (B.set 245 0) j = groupVal B j := by
  unfold groupVal
  rw [getD_set_ne B 245 (4 * j) 0 (by omega), getD_set_ne B 245 (4 * j + 1) 0 (by omega),
    getD_set_ne B 245 (4 * j + 2) 0 (by omega), getD_set_ne B 245 (4 * j + 3) 0 (by omega)]

theorem groupVal_flatten_le4 (ws : List Nat) (j : Nat) (hj : j < ws.length)
    (hw : ws.getD j 0 < 2 ^ 32) :
    groupVal ((ws.map le4).flatten) j = ws.getD j 0 := by
  unfold groupVal
  have h0 := flatten_le4_getD ws j 0 hj (by norm_num)
  have h1 := flatten_le4_getD ws j 1 hj (by norm_num)
  have h2 := flatten_le4_getD ws j 2 hj (by norm_num)
  have h3 := flatten_le4_getD ws j 3 hj (by norm_num)
  rw [Nat.add_zero] at h0
  rw [h0, h1, h2, h3]
  exact le4_val _ hw

theorem trial_byte245 (st : MTState) (seed : Nat) :
    ((trial st seed).2.1).getD 245 0 = 0 := by
  rw [trial_bytes]
  apply getD_set_self
  rw [flatten_le4_length, buildCand_length]
  norm_num

theorem trial_group (st : MTState) (seed : Nat) (j : Nat) (hj : j < 63) (hne : j ≠ 61) :
    groupVal ((trial st seed).2.1) j = (engineWords st seed 64).getD j 0 := by
  rw [trial_bytes, groupVal_set245_ne _ _ hne]
  have hlen := buildCand_length 64 (seedMT seed { st with left := -1 })
  have hout := buildCand_getD_lt 64 (seedMT seed { st with left := -1 }) j (by omega)
  have hw : (buildCand 64 (seedMT seed { st with left := -1 })).1.getD j 0 < 2 ^ 32 := by
    rw [hout]
    exact getD_lt32 _ (drawWords_lt 64 _ (seedVec_lt seed)) j
  rw [groupVal_flatten_le4 _ j (by omega) hw, hout, engineWords_eq]


theorem trial_group61 (st : MTState) (seed : Nat) :
    groupVal ((trial st seed).2.1) 61 =
      leWord32 ((le4 ((engineWords st seed 64).getD 61 0)).set 1 0) := by
  rw [trial_bytes]
  set ws := (buildCand 64 (seedMT seed { st with left := -1 })).1 with hws
  have hlen : ws.length = 64 := buildCand_length 64 _
  have hBlen : ((ws.map le4).flatten).length = 256 := by
    rw [flatten_le4_length, hlen]
  unfold groupVal
  rw [show 4 * 61 + 1 = 245 from by norm_num]
  rw [getD_set_ne _ 245 (4 * 61) 0 (by norm_num),
    getD_set_self _ 245 0 (by rw [hBlen]; norm_num),
    getD_set_ne _ 245 (4 * 61 + 2) 0 (by norm_num),
    getD_set_ne _ 245 (4 * 61 + 3) 0 (by norm_num)]
  have g0 := flatten_le4_getD ws 61 0 (by omega) (by norm_num)
  rw [Nat.add_zero] at g0
  have g2 := flatten_le4_getD ws 61 2 (by omega) (by norm_num)
  have g3 := flatten_le4_getD ws 61 3 (by omega) (by norm_num)
  rw [g0, g2, g3]
  have hout := buildCand_getD_lt 64 (seedMT seed { st with left := -1 }) 61 (by norm_num)
  rw [← hws] at hout
  rw [hout, engineWords_eq]
  simp [le4, leWord32]

theorem trial_group63 (st : MTState) (seed : Nat) :
    groupVal ((trial st seed).2.1) 63 =
      bswap32 ((bswap32 ((engineWords st seed 64).getD 63 0 &&& 0xFFFF) + 0x0200) % 2 ^ 32) := by
  rw [trial_bytes]
  set ws := (buildCand 64 (seedMT seed { st with left := -1 })).1 with hws
  have hlen : ws.length = 64 := buildCand_length 64 _
  have hlast := buildCand_last 64 (seedMT seed { st with left := -1 }) (by norm_num)
  have h63 : (64 : Nat) - 1 = 63 := by norm_num
  rw [h63] at hlast
  rw [← hws] at hlast
  have hw : ws.getD 63 0 < 2 ^ 32 := by
    rw [hlast]
    exact bswap32_lt _
  rw [groupVal_set245_ne _ _ (by norm_num), groupVal_flatten_le4 ws 63 (by omega) hw, hlast,
    engineWords_eq]

theorem trial_drop252 (st : MTState) (seed : Nat) :
    ((trial st seed).2.1).drop 252 =
      le4 (((engineWords st seed 64).getD 63 0 &&& 0xFFFF) + 0x020000) := by
  rw [trial_bytes]
  set ws := (buildCand 64 (seedMT seed { st with left := -1 })).1 with hws
  have hlen : ws.length = 64 := buildCand_length 64 _
  rw [List.drop_set, if_pos (by norm_num)]
  rw [show (252 : Nat) = 4 * 63 from by norm_num, flatten_le4_drop]
  have hget : ws.getD 63 0 = ws[63] := by
    have h63 : 63 < ws.length := by omega
    simp [List.getD_eq_getElem?_getD, List.getElem?_eq_getElem h63]
  have hdrop : ws.drop 63 = [ws.getD 63 0] := by
    rw [List.drop_eq_getElem_cons (by omega), List.drop_of_length_le (by omega), hget]
  rw [hdrop]
  have hlast := buildCand_last 64 (seedMT seed { st with left := -1 }) (by norm_num)
  have h63 : (64 : Nat) - 1 = 63 := by norm_num
  rw [h63] at hlast
  rw [← hws] at hlast
  simp only [List.map_cons, List.map_nil, List.flatten_cons, List.flatten_nil,
    List.append_nil]
  rw [hlast, engineWords_eq, bswap_low16]


theorem leVal_append : ∀ a b : List Nat, leVal (a ++ b) = leVal a + 256 ^ a.length * leVal b := by
  intro a
  induction a with
  | nil =>
    intro b
    simp [leVal]
  | cons x a ih =>
    intro b
    simp only [List.cons_append, leVal, List.length_cons, List.append_eq]
    rw [ih]
    ring

theorem leVal_lt_pow : ∀ bs : List Nat, (∀ x ∈ bs, x < 256) → leVal bs < 256 ^ bs.length := by
  intro bs
  induction bs with
  | nil =>
    intro h
    simp [leVal]
  | cons x bs ih =>
    intro h
    have hx : x < 256 := h x (List.mem_cons_self x bs)
    have hr : leVal bs < 256 ^ bs.length := ih (fun y hy => h y (List.mem_cons_of_mem x hy))
    simp only [leVal, List.length_cons, pow_succ]
    have h2 : 256 ^ bs.length * 256 = 256 * 256 ^ bs.length := by ring
    rw [h2]
    omega

theorem trial_len (st : MTState) (seed : Nat) : ((trial st seed).2.1).length = 256 := by
  rw [trial_bytes, List.length_set, flatten_le4_length, buildCand_length]

theorem trial_mem_lt (st : MTState) (seed : Nat) : ∀ x ∈ (trial st seed).2.1, x < 256 := by
  rw [trial_bytes]
  intro x hx
  rcases List.mem_or_eq_of_mem_set hx with h | rfl
  · simp only [List.mem_flatten] at h
    obtain ⟨l, hl, hxl⟩ := h
    simp only [List.mem_map] at hl
    obtain ⟨w, _, rfl⟩ := hl
    exact le4_mem_lt w x hxl
  · norm_num

/-- C6: for every seed (and any prior engine state), the finished
256-byte candidate buffer, read as a little-endian unsigned integer, is
strictly below the RSA modulus: its top byte is forced to 0 and its
byte 254 to 2, so the value is under `3 * 256 ^ 254`. -/
theorem c6_below_modulus (st : MTState) (seed : Nat) :
    leVal ((trial st seed).2.1) < rsaModulus := by
  have hlen := trial_len st seed
  have hmem := trial_mem_lt st seed
  have hdrop252 := trial_drop252 st seed
  have hm : (engineWords st seed 64).getD 63 0 &&& 0xFFFF < 65536 := by
    have h16 : (65536 : Nat) = 2 ^ 16 := by norm_num
    rw [h16]
    exact Nat.and_lt_two_pow _ (by norm_num)
  have hdrop254 : ((trial st seed).2.1).drop 254 = [2, 0] := by
    rw [show (254 : Nat) = 252 + 2 from by norm_num, ← List.drop_drop, hdrop252]
    simp only [le4, List.drop_succ_cons, List.drop_zero]
    rw [shr16, shr24, and255, and255]
    congr 1
    · omega
    · congr 1
      omega
  have hsplit : leVal ((trial st seed).2.1) =
      leVal (((trial st seed).2.1).take 254) + 256 ^ 254 * 2 := by
    conv_lhs => rw [← List.take_append_drop 254 ((trial st seed).2.1)]
    rw [leVal_append, hdrop254]
    have hlt : (((trial st seed).2.1).take 254).length = 254 := by
      rw [List.length_take, hlen]
      omega
    rw [hlt]
    simp [leVal]
  have htake : leVal (((trial st seed).2.1).take 254) < 256 ^ 254 := by
    have hb : ∀ x ∈ ((trial st seed).2.1).take 254, x < 256 :=
      fun x hx => hmem x (List.mem_of_mem_take hx)
    have := leVal_lt_pow _ hb
    have hlt : (((trial st seed).2.1).take 254).length = 254 := by
      rw [List.length_take, hlen]
      omega
    rw [hlt] at this
    exact this
  rw [hsplit]
  calc leVal (((trial st seed).2.1).take 254) + 256 ^ 254 * 2
      < 256 ^ 254 + 256 ^ 254 * 2 := Nat.add_lt_add_right htake _
    _ = 3 * 256 ^ 254 := by ring
    _ < rsaModulus := by decide


/-- Concrete evaluation: group 61 of the candidate buffer at seed 1. -/
theorem trial1_group61_val : groupVal ((trial mtInit 1).2.1) 61 = 0x615200ab := by
  decide!

/-- Concrete evaluation: the 62nd engine output at seed 1. -/
theorem engine1_word61_val : (engineWords mtInit 1 64).getD 61 0 = 0x615277ab := by
  decide!

/-- C2 counterexample: at seed 1 the claim fails, because byte 245 lies
inside 4-byte group 61, whose stored value therefore differs from the
61st engine output (0x615200AB stored against output 0x615277AB). -/
theorem c2_counterexample : ¬ candC2Claim mtInit 1 := by
  intro h
  have h2 := h.2.1 61 (by norm_num)
  rw [trial1_group61_val, engine1_word61_val] at h2
  exact absurd h2 (by decide)

/-- C2 (amended): the finished buffer has byte 245 = 0; groups 0..62
except group 61 hold the engine outputs verbatim; group 61 holds output
61 with its second byte (absolute offset 245) forced to zero; and the
last group holds `bswap32(bswap32(w & 0xFFFF) + 0x0200)` (a `uint32_t`
computation, taken modulo `2 ^ 32`) for the 64th output `w`. -/
theorem c2_candidate_layout (st : MTState) (seed : Nat) :
    ((trial st seed).2.1).getD 245 0 = 0 ∧
    (∀ j, j < 63 → j ≠ 61 →
      groupVal ((trial st seed).2.1) j = (engineWords st seed 64).getD j 0) ∧
    groupVal ((trial st seed).2.1) 61 =
      leWord32 ((le4 ((engineWords st seed 64).getD 61 0)).set 1 0) ∧
    groupVal ((trial st seed).2.1) 63 =
      bswap32 ((bswap32 ((engineWords st seed 64).getD 63 0 &&& 0xFFFF) + 0x0200) % 2 ^ 32) :=
  ⟨trial_byte245 st seed, fun j hj hne => trial_group st seed j hj hne,
   trial_group61 st seed, trial_group63 st seed⟩

/-- Concrete evaluation: the last four candidate bytes at seed 3. -/
theorem trial3_last_bytes_val : ((trial mtInit 3).2.1).drop 252 = [36, 160, 2, 0] := by
  decide!

/-- Concrete evaluation: the 64th engine output at seed 3. -/
theorem engine3_word63_val : (engineWords mtInit 3 64).getD 63 0 = 0x29cda024 := by
  decide!

/-- C3 counterexample: at seed 3 the last group is not the byte-reversed
encoding of `(w & 0xFFFF) + 0x0200`: the code stores bytes
`[0x24, 0xA0, 0x02, 0x00]` where the claim predicts
`[0x00, 0x00, 0xA2, 0x24]`. -/
theorem c3_counterexample : ¬ candC3Claim mtInit 3 := by
  intro h
  unfold candC3Claim at h
  rw [trial3_last_bytes_val, engine3_word63_val] at h
  exact absurd h (by decide)

/-- C3 (amended): the 64th stored word is
`bswap32(bswap32(w & 0xFFFF) + 0x0200)`: the offset 0x0200 is added to
the byte-swapped masked value and the sum swapped back, so the last four
bytes are the plain little-endian encoding of `(w & 0xFFFF) + 0x020000`
(low two bytes keep the masked value, third byte 0x02, top byte 0x00). -/
theorem c3_last_group (st : MTState) (seed : Nat) :
    ((trial st seed).2.1).drop 252 =
      le4 (((engineWords st seed 64).getD 63 0 &&& 0xFFFF) + 0x020000) ∧
    (trial st seed).1.getD 63 0 =
      bswap32 ((bswap32 ((engineWords st seed 64).getD 63 0 &&& 0xFFFF) + 0x0200) % 2 ^ 32) := by
  refine ⟨trial_drop252 st seed, ?_⟩
  have hlast := buildCand_last 64 (seedMT seed { st with left := -1 }) (by norm_num)
  have h63 : (64 : Nat) - 1 = 63 := by norm_num
  rw [h63] at hlast
  rw [trial_words, engineWords_eq]
  exact hlast

/-- C7: a non-matching iteration advances the seed by exactly 2 in
32-bit arithmetic and keeps running; the loop produces its terminal
(`done`, exit-success) report only from an iteration whose comparison
succeeded, and any terminated execution carries a successful comparison:
the process never terminates without a match. -/
theorem c7_loop_behavior :
    (∀ (oracle : List Nat → List Nat) (tgt : Nat) (s : Nat × MTState),
      prefixHit (oracle (trial s.2 s.1).2.1) tgt = false →
      loopStep oracle tgt s = .inl ((s.1 + 2) % 2 ^ 32, (trial s.2 s.1).2.2)) ∧
    (∀ (oracle : List Nat → List Nat) (tgt : Nat) (s : Nat × MTState) (f : FoundRep),
      loopStep oracle tgt s = .inr f → prefixHit f.fout tgt = true ∧ f.fseed = s.1) ∧
    (∀ (oracle : List Nat → List Nat) (tgt : Nat) (n : Nat) (s : Nat × MTState) (f : FoundRep),
      runLoop oracle tgt n s = .inr f → prefixHit f.fout tgt = true) :=
  ⟨loopStep_miss, loopStep_hit, fun oracle tgt => runLoop_inr oracle tgt⟩

/-- Witness for C7 at a concrete oracle, target and state. -/
theorem c7_loop_behavior_witness :
    loopStep (fun _ => List.replicate 256 0) 7 (1, mtInit) =
      .inl ((1 + 2) % 2 ^ 32, (trial mtInit 1).2.2) :=
  c7_loop_behavior.1 (fun _ => List.replicate 256 0) 7 (1, mtInit) (by decide)

/-- Witness for C4 at seed 1 and the initial engine state. -/
theorem c4_seed_expansion_witness :
    (seedMT 1 mtInit).vec.getD 0 0 = 1 ||| 1 ∧
    (seedMT 1 mtInit).vec.getD 5 0 = (69069 * (seedMT 1 mtInit).vec.getD 4 0) % 2 ^ 32 :=
  ⟨(c4_seed_expansion 1 mtInit (by decide)).1,
   (c4_seed_expansion 1 mtInit (by decide)).2.1 5 (by decide) (by decide)⟩

/-- Witness for C8: the `randomMT` preservation clause at the initial state. -/
theorem c8_countdown_range_witness :
    -1 ≤ (randomMT mtInit).2.left ∧ (randomMT mtInit).2.left ≤ 623 :=
  c8_countdown_range.2.2.2 mtInit (by decide) (by decide)

/-- Witness for C9 at a concrete state with countdown 7 and cursor 3. -/
theorem c9_read_frame_witness :
    (randomMT ⟨List.replicate 624 0, 3, 7⟩).2.vec = (⟨List.replicate 624 0, 3, 7⟩ : MTState).vec ∧
    (randomMT ⟨List.replicate 624 0, 3, 7⟩).2.nxt = (⟨List.replicate 624 0, 3, 7⟩ : MTState).nxt + 1 ∧
    (randomMT ⟨List.replicate 624 0, 3, 7⟩).2.left = (⟨List.replicate 624 0, 3, 7⟩ : MTState).left - 1 :=
  c9_read_frame ⟨List.replicate 624 0, 3, 7⟩ (by decide)

/-- Witness for C10 at a concrete never-seeded state (sentinel -2). -/
theorem c10_fallback_seed_witness :
    reloadMT ⟨List.replicate 624 0, 0, -2⟩ = randomMT (seedMT 1 ⟨List.replicate 624 0, 0, -2⟩) :=
  (c10_fallback_seed ⟨List.replicate 624 0, 0, -2⟩ (by decide)).1

end SBoot
